import Mathlib

/-!
Verification of the flat JSON parser library (`src/lib.rs`) against its
natural-language specification.

The file shallowly embeds the data model (`ValueType`, `PointerKey`,
`ParseOptions`, `ParseResult`, `JsonArrayEntries`) and the operations
`PointerKey::parent`, `JSONParser::change_depth` and
`JSONParser::filter_non_null_column` as executable Lean definitions,
and proves the claims about them.

Conventions of the embedding:
- Rust strings are Lean `String`s; byte positions inside a string are
  modelled at character granularity (identical content-wise for the
  truncations performed here).
- `u8` / `usize` fields are modelled as `Nat` (no operation in the
  embedded code can overflow on the values reachable by the claims:
  depths are only compared, copied etc.).
- The inner recursive-descent `Parser::parse` lives in `src/parser.rs`,
  which is not part of the sources; `change_depth` only invokes it as a
  black box, so the embedding takes it as an explicit function argument
  of type `ParserFn` and the theorems quantify over it.
- The Rust field and parameter name `prefix` is a Lean keyword; it is
  renamed `pfx` (`parsing_prefix` becomes `parsing_pfx`).
-/

/-- Mirror of `ValueType` from `src/lib.rs`: the JSON value kind of a flattened
entry.  `Array` carries the declared length; `None` is the default
placeholder variant. -/
inductive ValueType where
  | Array : Nat → ValueType
  | Object : ValueType
  | Number : ValueType
  | String : ValueType
  | Bool : ValueType
  | Null : ValueType
  | None : ValueType
deriving Repr, DecidableEq

/-- Mirror of `PointerKey` from `src/lib.rs`: identifies one location in the
document. -/
structure PointerKey where
  pointer : String
  value_type : ValueType
  depth : Nat
  index : Nat
  position : Nat
deriving Repr, DecidableEq

/-- The `PartialEq` implementation of `PointerKey`: equality is decided
on the `pointer` field alone. -/
def PointerKey.rustEq (a b : PointerKey) : Bool :=
  a.pointer == b.pointer

/-- The `Hash` implementation of `PointerKey`: only the `pointer` field
is fed to the hasher (modelled as an arbitrary function on strings). -/
def PointerKey.rustHash (h : String → Nat) (k : PointerKey) : Nat :=
  h k.pointer

/-- Index of the last occurrence of `c` in `l` (the model of Rust's
`str::rfind` at character granularity). -/
def rfindIdx : List Char → Char → Option Nat
  | [], _ => none
  | x :: xs, c =>
    match rfindIdx xs c with
    | some i => some (i + 1)
    | none => if x = c then some 0 else none

/-- Mirror of `PointerKey::parent` from `src/lib.rs`: truncate the pointer at the
last `/`; when the last `/` is at position 0 (or there is none), the
parent is `"/"`. -/
def PointerKey.parent (k : PointerKey) : String :=
  let index := (rfindIdx k.pointer.toList '/').getD 0
  if index = 0 then "/" else String.mk (k.pointer.toList.take index)

/-- Mirror of `ParseOptions` from `src/lib.rs` (`prefix` renamed `pfx`). -/
structure ParseOptions where
  parse_array : Bool
  keep_object_raw_data : Bool
  max_depth : Nat
  start_parse_at : Option String
  pfx : Option String
deriving Repr, DecidableEq

/-- Mirror of `impl Default for ParseOptions` from `src/lib.rs`. -/
def ParseOptions.default : ParseOptions :=
  { parse_array := true
    keep_object_raw_data := true
    max_depth := 10
    start_parse_at := none
    pfx := none }

/-- One flattened entry: a `PointerKey` paired with an optional raw
value (an element of the `FlatJsonValue` vector). -/
abbrev FlatEntry := PointerKey × Option String

/-- Mirror of `FlatJsonValue` from `src/lib.rs`: the ordered list of flattened
entries. -/
abbrev FlatJsonValue := List FlatEntry

/-- Mirror of `JsonArrayEntries` from `src/lib.rs`: one row of a flattened
top-level array. -/
structure JsonArrayEntries where
  entries : FlatJsonValue
  index : Nat
deriving Repr, DecidableEq

/-- Mirror of `JsonArrayEntries::find_node_at` from `src/lib.rs`: the first entry
whose pointer equals the given one. -/
def JsonArrayEntries.find_node_at (row : JsonArrayEntries) (pointer : String) :
    Option FlatEntry :=
  row.entries.find? (fun p => p.1.pointer == pointer)

/-- Mirror of `ParseResult` from `src/lib.rs` (`parsing_prefix` renamed
`parsing_pfx`). -/
structure ParseResult where
  json : FlatJsonValue
  max_json_depth : Nat
  parsing_max_depth : Nat
  started_parsing_at : Option String
  parsing_pfx : Option String
deriving Repr, DecidableEq

/-- The type of the inner `Parser::parse` operation as `change_depth`
uses it: input text, options, starting depth, and either a parse result
or an error string. -/
abbrev ParserFn := String → ParseOptions → Nat → Except String ParseResult

/-- The loop body of `JSONParser::change_depth` (`src/lib.rs` lines
210-228): walk the previous entries in order; non-`Object` entries and
`Object` entries away from the previous depth limit are carried over;
an `Object` entry at the previous depth limit with raw text is kept and
its raw text is re-parsed with `prefix` set to the entry's pointer and
starting depth one greater, the produced entries spliced in right after
it; an `Object` entry at the limit without raw text is dropped. -/
def changeDepthGo (parse : ParserFn) (prevDepth : Nat) (opts : ParseOptions) :
    FlatJsonValue → Except String FlatJsonValue
  | [] => .ok []
  | (k, v) :: rest =>
    if k.value_type = ValueType.Object then
      if k.depth = prevDepth then
        match v with
        | some raw =>
          match parse raw { opts with pfx := some k.pointer } (k.depth + 1) with
          | .error e => .error e
          | .ok res =>
            match changeDepthGo parse prevDepth opts rest with
            | .error e => .error e
            | .ok tail => .ok ((k, some raw) :: (res.json ++ tail))
        | none => changeDepthGo parse prevDepth opts rest
      else
        match changeDepthGo parse prevDepth opts rest with
        | .error e => .error e
        | .ok tail => .ok ((k, v) :: tail)
    else
      match changeDepthGo parse prevDepth opts rest with
      | .error e => .error e
      | .ok tail => .ok ((k, v) :: tail)

/-- Mirror of `JSONParser::change_depth` from `src/lib.rs`: when the requested
`max_depth` is strictly greater than the previous `parsing_max_depth`,
rebuild the entry list via `changeDepthGo` and update
`parsing_max_depth`; otherwise return the previous result unchanged. -/
def change_depth (parse : ParserFn) (previous : ParseResult)
    (opts : ParseOptions) : Except String ParseResult :=
  if previous.parsing_max_depth < opts.max_depth then
    match changeDepthGo parse previous.parsing_max_depth opts previous.json with
    | .error e => .error e
    | .ok l =>
      .ok { json := l
            max_json_depth := previous.max_json_depth
            parsing_max_depth := opts.max_depth
            started_parsing_at := previous.started_parsing_at
            parsing_pfx := previous.parsing_pfx }
  else
    .ok previous

/-- The inner loop of `JSONParser::filter_non_null_column`
(`src/lib.rs` lines 245-257): `should_add_row` with early `break` —
the row passes when every listed column pointer is found by
`find_node_at` with a value that is not `None`. -/
def rowPasses (row : JsonArrayEntries) (pfx : String)
    (non_null_columns : List String) : Bool :=
  match non_null_columns with
  | [] => true
  | c :: rest =>
    match row.find_node_at (pfx ++ "/" ++ toString row.index ++ c) with
    | some (_, value) => if value.isNone then false else rowPasses row pfx rest
    | none => false

/-- Mirror of `JSONParser::filter_non_null_column` from `src/lib.rs`: keep, in
order, the rows that pass `rowPasses`. -/
def filter_non_null_column (rows : List JsonArrayEntries) (pfx : String)
    (non_null_columns : List String) : List JsonArrayEntries :=
  match rows with
  | [] => []
  | row :: rest =>
    if rowPasses row pfx non_null_columns then
      row :: filter_non_null_column rest pfx non_null_columns
    else
      filter_non_null_column rest pfx non_null_columns

/-- C4: `PointerKey` equality holds iff the `pointer` fields are equal
(the other fields are not consulted), and the hash depends only on the
`pointer` field, so equal pointers hash equally under every hasher. -/
theorem pointerKey_eq_hash_only_pointer (a b : PointerKey) :
    (a.rustEq b = true ↔ a.pointer = b.pointer) ∧
      (a.pointer = b.pointer →
        ∀ h : String → Nat, a.rustHash h = b.rustHash h) := by
  constructor
  · simp [PointerKey.rustEq]
  · intro hp h
    simp [PointerKey.rustHash, hp]

/-- Witness for C4 at concrete keys sharing a pointer but differing in
every other field. -/
theorem pointerKey_eq_hash_only_pointer_witness :
    (PointerKey.rustEq ⟨"/a/0", ValueType.Number, 2, 0, 5⟩
        ⟨"/a/0", ValueType.Object, 7, 3, 9⟩ = true ↔
      ("/a/0" : String) = "/a/0") ∧
      (("/a/0" : String) = "/a/0" →
        ∀ h : String → Nat,
          PointerKey.rustHash h ⟨"/a/0", ValueType.Number, 2, 0, 5⟩ =
            PointerKey.rustHash h ⟨"/a/0", ValueType.Object, 7, 3, 9⟩) :=
  pointerKey_eq_hash_only_pointer
    ⟨"/a/0", ValueType.Number, 2, 0, 5⟩ ⟨"/a/0", ValueType.Object, 7, 3, 9⟩

/-- C8: the default `ParseOptions` has `parse_array = true`,
`keep_object_raw_data = true`, `max_depth = 10`, no `start_parse_at`
and no prefix. -/
theorem parseOptions_default_fields :
    ParseOptions.default.parse_array = true ∧
      ParseOptions.default.keep_object_raw_data = true ∧
      ParseOptions.default.max_depth = 10 ∧
      ParseOptions.default.start_parse_at = none ∧
      ParseOptions.default.pfx = none :=
  ⟨rfl, rfl, rfl, rfl, rfl⟩

/-- C2: when the requested `max_depth` is not strictly greater than the
previous `parsing_max_depth`, `change_depth` returns the previous
result unchanged; consequently applying `change_depth` a second time
with the same options equals applying it once. -/
theorem change_depth_noop_idempotent (parse : ParserFn) (R : ParseResult)
    (O : ParseOptions) :
    (¬ R.parsing_max_depth < O.max_depth →
        change_depth parse R O = Except.ok R) ∧
      (change_depth parse R O >>= fun R2 => change_depth parse R2 O) =
        change_depth parse R O := by
  constructor
  · intro h
    simp [change_depth, h]
  · by_cases h : R.parsing_max_depth < O.max_depth
    · simp only [change_depth, if_pos h]
      cases hgo : changeDepthGo parse R.parsing_max_depth O R.json with
      | error e => rfl
      | ok l => simp [Bind.bind, Except.bind, change_depth]
    · simp [change_depth, Bind.bind, Except.bind, if_neg h]

/-- Witness for C2 at a concrete result whose depth does not increase. -/
theorem change_depth_noop_idempotent_witness :
    (¬ (ParseResult.mk [] 0 3 none none).parsing_max_depth <
          (ParseOptions.mk true true 2 none none).max_depth →
        change_depth (fun _ _ _ => Except.error "unused")
            (ParseResult.mk [] 0 3 none none)
            (ParseOptions.mk true true 2 none none) =
          Except.ok (ParseResult.mk [] 0 3 none none)) ∧
      (change_depth (fun _ _ _ => Except.error "unused")
            (ParseResult.mk [] 0 3 none none)
            (ParseOptions.mk true true 2 none none) >>=
          fun R2 =>
            change_depth (fun _ _ _ => Except.error "unused") R2
              (ParseOptions.mk true true 2 none none)) =
        change_depth (fun _ _ _ => Except.error "unused")
          (ParseResult.mk [] 0 3 none none)
          (ParseOptions.mk true true 2 none none) :=
  change_depth_noop_idempotent (fun _ _ _ => Except.error "unused")
    (ParseResult.mk [] 0 3 none none) (ParseOptions.mk true true 2 none none)

/-- C5: when the depth actually increases and `change_depth` succeeds,
the produced result's `parsing_max_depth` is the requested one while
`max_json_depth`, `started_parsing_at` and the parsing prefix are
carried over from the previous result. -/
theorem change_depth_frame (parse : ParserFn) (R : ParseResult)
    (O : ParseOptions) (R2 : ParseResult)
    (h : R.parsing_max_depth < O.max_depth)
    (hok : change_depth parse R O = Except.ok R2) :
    R2.parsing_max_depth = O.max_depth ∧
      R2.max_json_depth = R.max_json_depth ∧
      R2.started_parsing_at = R.started_parsing_at ∧
      R2.parsing_pfx = R.parsing_pfx := by
  unfold change_depth at hok
  rw [if_pos h] at hok
  cases hgo : changeDepthGo parse R.parsing_max_depth O R.json with
  | error e => rw [hgo] at hok; cases hok
  | ok l =>
    rw [hgo] at hok
    simp only [Except.ok.injEq] at hok
    subst hok
    exact ⟨rfl, rfl, rfl, rfl⟩

/-- Witness for C5: a concrete widening from depth 1 to depth 2 on an
empty entry list. -/
theorem change_depth_frame_witness :
    (ParseResult.mk [] 4 1 (some "/s") (some "/p")).parsing_max_depth <
        (ParseOptions.mk true true 2 none none).max_depth ∧
      (ParseResult.mk [] 4 2 (some "/s") (some "/p")).parsing_max_depth =
          (ParseOptions.mk true true 2 none none).max_depth ∧
        (ParseResult.mk [] 4 2 (some "/s") (some "/p")).max_json_depth =
            (ParseResult.mk [] 4 1 (some "/s") (some "/p")).max_json_depth ∧
          (ParseResult.mk [] 4 2 (some "/s") (some "/p")).started_parsing_at =
              (ParseResult.mk [] 4 1 (some "/s") (some "/p")).started_parsing_at ∧
            (ParseResult.mk [] 4 2 (some "/s") (some "/p")).parsing_pfx =
              (ParseResult.mk [] 4 1 (some "/s") (some "/p")).parsing_pfx :=
  ⟨by decide,
    change_depth_frame (fun _ _ _ => Except.error "unused")
      (ParseResult.mk [] 4 1 (some "/s") (some "/p"))
      (ParseOptions.mk true true 2 none none)
      (ParseResult.mk [] 4 2 (some "/s") (some "/p"))
      (by decide) rfl⟩

/-- Expansion of a single previous entry as the specification of
`change_depth` describes it: non-`Object` entries and `Object` entries
whose depth differs from the previous limit stay as they are; an
`Object` entry at the previous limit with raw text is kept (raw text
preserved) followed by the entries obtained by re-parsing its raw text
with the new options, the prefix set to the entry's own pointer and the
starting depth one greater than the entry's depth; an `Object` entry at
the limit without raw text contributes nothing. -/
def widenedEntry (parse : ParserFn) (prevDepth : Nat) (opts : ParseOptions)
    (e : FlatEntry) : FlatJsonValue :=
  if e.1.value_type = ValueType.Object ∧ e.1.depth = prevDepth then
    match e.2 with
    | some raw =>
      match parse raw { opts with pfx := some e.1.pointer } (e.1.depth + 1) with
      | .ok r => (e.1, some raw) :: r.json
      | .error _ => []
    | none => []
  else [e]

/-- Unfolding of `changeDepthGo` on an `Object` entry at the previous
depth limit carrying raw text. -/
theorem changeDepthGo_cons_some (parse : ParserFn) (prevDepth : Nat)
    (opts : ParseOptions) (k : PointerKey) (raw : String)
    (rest : FlatJsonValue) (hobj : k.value_type = ValueType.Object)
    (hd : k.depth = prevDepth) :
    changeDepthGo parse prevDepth opts ((k, some raw) :: rest) =
      match parse raw { opts with pfx := some k.pointer } (k.depth + 1) with
      | .error e => .error e
      | .ok res =>
        match changeDepthGo parse prevDepth opts rest with
        | .error e => .error e
        | .ok tail => .ok ((k, some raw) :: (res.json ++ tail)) := by
  simp only [changeDepthGo, if_pos hobj, if_pos hd]

/-- Unfolding of `changeDepthGo` on an `Object` entry at the previous
depth limit with no raw text: the entry is skipped. -/
theorem changeDepthGo_cons_none (parse : ParserFn) (prevDepth : Nat)
    (opts : ParseOptions) (k : PointerKey) (rest : FlatJsonValue)
    (hobj : k.value_type = ValueType.Object) (hd : k.depth = prevDepth) :
    changeDepthGo parse prevDepth opts ((k, none) :: rest) =
      changeDepthGo parse prevDepth opts rest := by
  simp only [changeDepthGo, if_pos hobj, if_pos hd]

/-- Unfolding of `changeDepthGo` on an entry that is carried over
unchanged (not an `Object` at the previous depth limit). -/
theorem changeDepthGo_cons_carry (parse : ParserFn) (prevDepth : Nat)
    (opts : ParseOptions) (k : PointerKey) (v : Option String)
    (rest : FlatJsonValue)
    (hnot : ¬(k.value_type = ValueType.Object ∧ k.depth = prevDepth)) :
    changeDepthGo parse prevDepth opts ((k, v) :: rest) =
      match changeDepthGo parse prevDepth opts rest with
      | .error e => .error e
      | .ok tail => .ok ((k, v) :: tail) := by
  by_cases hobj : k.value_type = ValueType.Object
  · have hd : ¬ k.depth = prevDepth := fun hd => hnot ⟨hobj, hd⟩
    simp only [changeDepthGo, if_pos hobj, if_neg hd]
  · simp only [changeDepthGo, if_neg hobj]

/-- A successful `changeDepthGo` run produces exactly the concatenation
of the per-entry expansions. -/
theorem changeDepthGo_ok (parse : ParserFn) (prevDepth : Nat)
    (opts : ParseOptions) :
    ∀ (l out : FlatJsonValue),
      changeDepthGo parse prevDepth opts l = Except.ok out →
        out = (l.map (widenedEntry parse prevDepth opts)).flatten := by
  intro l
  induction l with
  | nil =>
    intro out h
    simp only [changeDepthGo, Except.ok.injEq] at h
    simp [← h]
  | cons e rest ih =>
    intro out h
    obtain ⟨k, v⟩ := e
    by_cases hb : k.value_type = ValueType.Object ∧ k.depth = prevDepth
    · obtain ⟨hobj, hd⟩ := hb
      cases v with
      | none =>
        rw [changeDepthGo_cons_none parse prevDepth opts k rest hobj hd] at h
        have hrest := ih out h
        simp [widenedEntry, hobj, hd, hrest]
      | some raw =>
        rw [changeDepthGo_cons_some parse prevDepth opts k raw rest hobj hd] at h
        cases hp : parse raw { opts with pfx := some k.pointer } (k.depth + 1) with
        | error e2 => rw [hp] at h; cases h
        | ok r =>
          rw [hp] at h
          cases hgo : changeDepthGo parse prevDepth opts rest with
          | error e2 => rw [hgo] at h; cases h
          | ok tail =>
            rw [hgo] at h
            cases h
            have hrest := ih tail hgo
            rw [hd] at hp
            simp [widenedEntry, hobj, hd, hp, hrest]
    · rw [changeDepthGo_cons_carry parse prevDepth opts k v rest hb] at h
      cases hgo : changeDepthGo parse prevDepth opts rest with
      | error e2 => rw [hgo] at h; cases h
      | ok tail =>
        rw [hgo] at h
        cases h
        have hrest := ih tail hgo
        simp [widenedEntry, hb, hrest]

/-- C1: when the depth strictly increases and `change_depth` succeeds,
the produced entry list is exactly the in-order concatenation of the
per-entry expansions: entries that are not `Object`-at-the-previous-
limit are carried over unchanged in their relative order, and each
`Object` entry at the previous limit with raw text is kept (raw text
preserved) immediately followed by the entries produced by re-parsing
its raw text with the new options, prefix equal to that entry's own
pointer and starting depth equal to its depth plus one. -/
theorem change_depth_widening_structure (parse : ParserFn) (R : ParseResult)
    (O : ParseOptions) (R2 : ParseResult)
    (h : R.parsing_max_depth < O.max_depth)
    (hok : change_depth parse R O = Except.ok R2) :
    R2.json = (R.json.map (widenedEntry parse R.parsing_max_depth O)).flatten := by
  unfold change_depth at hok
  rw [if_pos h] at hok
  cases hgo : changeDepthGo parse R.parsing_max_depth O R.json with
  | error e => rw [hgo] at hok; cases hok
  | ok l =>
    rw [hgo] at hok
    simp only [Except.ok.injEq] at hok
    subst hok
    exact changeDepthGo_ok parse R.parsing_max_depth O R.json l hgo

/-- A concrete inner parser used to witness the `change_depth`
theorems: it emits one numeric entry rooted at the supplied prefix. -/
def sampleParse : ParserFn := fun raw o d =>
  Except.ok
    { json := [(PointerKey.mk ((o.pfx.getD "") ++ "/c") ValueType.Number d 0 0,
        some raw)]
      max_json_depth := d
      parsing_max_depth := o.max_depth
      started_parsing_at := none
      parsing_pfx := o.pfx }

/-- A concrete previous parse result: an object kept as raw text at the
depth limit 1 and a scalar, as produced by a depth-1 parse. -/
def sampleR : ParseResult :=
  { json := [(PointerKey.mk "/a" ValueType.Object 1 0 0, some "\x7b\x7d"),
      (PointerKey.mk "/b" ValueType.Number 1 0 5, some "1")]
    max_json_depth := 3
    parsing_max_depth := 1
    started_parsing_at := none
    parsing_pfx := none }

/-- Concrete options requesting depth 2. -/
def sampleO : ParseOptions := ParseOptions.mk true true 2 none none

/-- The result `change_depth sampleParse sampleR sampleO` produces. -/
def sampleWidened : ParseResult :=
  { json := [(PointerKey.mk "/a" ValueType.Object 1 0 0, some "\x7b\x7d"),
      (PointerKey.mk "/a/c" ValueType.Number 2 0 0, some "\x7b\x7d"),
      (PointerKey.mk "/b" ValueType.Number 1 0 5, some "1")]
    max_json_depth := 3
    parsing_max_depth := 2
    started_parsing_at := none
    parsing_pfx := none }

/-- Witness for C1 at the concrete widening of `sampleR`. -/
theorem change_depth_widening_structure_witness :
    sampleR.parsing_max_depth < sampleO.max_depth ∧
      sampleWidened.json =
        (sampleR.json.map
            (widenedEntry sampleParse sampleR.parsing_max_depth sampleO)).flatten :=
  ⟨by decide,
    change_depth_widening_structure sampleParse sampleR sampleO sampleWidened
      (by decide) rfl⟩

/-- Skipping lemma: an `Object` entry at the previous depth limit whose
raw value is absent contributes nothing to `changeDepthGo`, wherever it
sits in the list. -/
theorem changeDepthGo_skip (parse : ParserFn) (prevDepth : Nat)
    (opts : ParseOptions) (k : PointerKey)
    (hobj : k.value_type = ValueType.Object) (hd : k.depth = prevDepth) :
    ∀ (l1 l2 : FlatJsonValue),
      changeDepthGo parse prevDepth opts (l1 ++ (k, none) :: l2) =
        changeDepthGo parse prevDepth opts (l1 ++ l2) := by
  intro l1 l2
  induction l1 with
  | nil =>
    simp only [List.nil_append]
    exact changeDepthGo_cons_none parse prevDepth opts k l2 hobj hd
  | cons e l1 ih =>
    obtain ⟨k2, v2⟩ := e
    simp only [List.cons_append]
    by_cases hb : k2.value_type = ValueType.Object ∧ k2.depth = prevDepth
    · obtain ⟨hobj2, hd2⟩ := hb
      cases v2 with
      | none =>
        rw [changeDepthGo_cons_none parse prevDepth opts k2 _ hobj2 hd2,
          changeDepthGo_cons_none parse prevDepth opts k2 _ hobj2 hd2, ih]
      | some raw =>
        rw [changeDepthGo_cons_some parse prevDepth opts k2 raw _ hobj2 hd2,
          changeDepthGo_cons_some parse prevDepth opts k2 raw _ hobj2 hd2, ih]
    · rw [changeDepthGo_cons_carry parse prevDepth opts k2 v2 _ hb,
        changeDepthGo_cons_carry parse prevDepth opts k2 v2 _ hb, ih]

/-- C9: when the depth strictly increases, an `Object` entry whose depth
equals the previous `parsing_max_depth` but whose raw value is `None`
is removed entirely by `change_depth`: the outcome is the same as if
the entry were not in the previous list at all (so it is neither
carried over nor replaced by sub-entries). -/
theorem change_depth_drops_rawless_boundary_object (parse : ParserFn)
    (O : ParseOptions) (k : PointerKey) (l1 l2 : FlatJsonValue)
    (mjd pmd : Nat) (spa ppfx : Option String)
    (h : pmd < O.max_depth)
    (hobj : k.value_type = ValueType.Object) (hd : k.depth = pmd) :
    change_depth parse (ParseResult.mk (l1 ++ (k, none) :: l2) mjd pmd spa ppfx) O =
      change_depth parse (ParseResult.mk (l1 ++ l2) mjd pmd spa ppfx) O := by
  simp only [change_depth, if_pos h]
  rw [changeDepthGo_skip parse pmd O k hobj hd l1 l2]

/-- Witness for C9: a rawless boundary object between two scalars
disappears from the widened result. -/
theorem change_depth_drops_rawless_boundary_object_witness :
    (1 : Nat) < sampleO.max_depth ∧
      change_depth sampleParse
          (ParseResult.mk
            [(PointerKey.mk "/a" ValueType.Object 1 0 0, none),
              (PointerKey.mk "/b" ValueType.Number 1 0 5, some "1")]
            3 1 none none) sampleO =
        change_depth sampleParse
          (ParseResult.mk [(PointerKey.mk "/b" ValueType.Number 1 0 5, some "1")]
            3 1 none none) sampleO :=
  ⟨by decide,
    change_depth_drops_rawless_boundary_object sampleParse sampleO
      (PointerKey.mk "/a" ValueType.Object 1 0 0) []
      [(PointerKey.mk "/b" ValueType.Number 1 0 5, some "1")]
      3 1 none none (by decide) rfl rfl⟩

/-- Error propagation lemma: if a boundary object's raw text fails to
re-parse and every boundary object before it re-parses successfully,
`changeDepthGo` returns exactly that error. -/
theorem changeDepthGo_error (parse : ParserFn) (prevDepth : Nat)
    (opts : ParseOptions) (k : PointerKey) (raw e : String)
    (l2 : FlatJsonValue)
    (hobj : k.value_type = ValueType.Object) (hd : k.depth = prevDepth)
    (hfail : parse raw { opts with pfx := some k.pointer } (k.depth + 1) =
      Except.error e) :
    ∀ (l1 : FlatJsonValue),
      (∀ (k2 : PointerKey) (raw2 : String), (k2, some raw2) ∈ l1 →
        k2.value_type = ValueType.Object → k2.depth = prevDepth →
          ∃ r, parse raw2 { opts with pfx := some k2.pointer } (k2.depth + 1) =
            Except.ok r) →
      changeDepthGo parse prevDepth opts (l1 ++ (k, some raw) :: l2) =
        Except.error e := by
  intro l1
  induction l1 with
  | nil =>
    intro _
    rw [List.nil_append,
      changeDepthGo_cons_some parse prevDepth opts k raw l2 hobj hd, hfail]
  | cons ent l1 ih =>
    intro hpre
    obtain ⟨k2, v2⟩ := ent
    simp only [List.cons_append]
    have hpre2 : ∀ (k3 : PointerKey) (raw3 : String), (k3, some raw3) ∈ l1 →
        k3.value_type = ValueType.Object → k3.depth = prevDepth →
          ∃ r, parse raw3 { opts with pfx := some k3.pointer } (k3.depth + 1) =
            Except.ok r :=
      fun k3 raw3 hm => hpre k3 raw3 (List.mem_cons_of_mem _ hm)
    by_cases hb : k2.value_type = ValueType.Object ∧ k2.depth = prevDepth
    · obtain ⟨hobj2, hd2⟩ := hb
      cases v2 with
      | none =>
        rw [changeDepthGo_cons_none parse prevDepth opts k2 _ hobj2 hd2,
          ih hpre2]
      | some raw2 =>
        obtain ⟨r, hr⟩ :=
          hpre k2 raw2 (List.mem_cons_self _ _) hobj2 hd2
        rw [changeDepthGo_cons_some parse prevDepth opts k2 raw2 _ hobj2 hd2,
          hr, ih hpre2]
    · rw [changeDepthGo_cons_carry parse prevDepth opts k2 v2 _ hb, ih hpre2]

/-- Existence form of error propagation: a failing boundary object
anywhere in the list forces `changeDepthGo` to fail, whatever the
surrounding entries do. -/
theorem changeDepthGo_error_exists (parse : ParserFn) (prevDepth : Nat)
    (opts : ParseOptions) (k : PointerKey) (raw e : String)
    (hobj : k.value_type = ValueType.Object) (hd : k.depth = prevDepth)
    (hfail : parse raw { opts with pfx := some k.pointer } (k.depth + 1) =
      Except.error e) :
    ∀ (l1 l2 : FlatJsonValue), ∃ e2,
      changeDepthGo parse prevDepth opts (l1 ++ (k, some raw) :: l2) =
        Except.error e2 := by
  intro l1
  induction l1 with
  | nil =>
    intro l2
    refine ⟨e, ?_⟩
    rw [List.nil_append,
      changeDepthGo_cons_some parse prevDepth opts k raw l2 hobj hd, hfail]
  | cons ent l1 ih =>
    intro l2
    obtain ⟨k2, v2⟩ := ent
    obtain ⟨e2, he2⟩ := ih l2
    simp only [List.cons_append]
    by_cases hb : k2.value_type = ValueType.Object ∧ k2.depth = prevDepth
    · obtain ⟨hobj2, hd2⟩ := hb
      cases v2 with
      | none =>
        exact ⟨e2, by
          rw [changeDepthGo_cons_none parse prevDepth opts k2 _ hobj2 hd2, he2]⟩
      | some raw2 =>
        cases hp : parse raw2 { opts with pfx := some k2.pointer } (k2.depth + 1) with
        | error e3 =>
          exact ⟨e3, by
            rw [changeDepthGo_cons_some parse prevDepth opts k2 raw2 _ hobj2 hd2,
              hp]⟩
        | ok r =>
          exact ⟨e2, by
            rw [changeDepthGo_cons_some parse prevDepth opts k2 raw2 _ hobj2 hd2,
              hp, he2]⟩
    · exact ⟨e2, by
        rw [changeDepthGo_cons_carry parse prevDepth opts k2 v2 _ hb, he2]⟩

/-- C6: when the depth strictly increases and re-parsing the raw text
of a depth-boundary `Object` entry fails, `change_depth` produces no
`ParseResult` at all — it returns an error whatever the surrounding
entries are, and when every earlier boundary entry re-parses
successfully, the returned error is exactly the failing re-parse's
error. -/
theorem change_depth_error_propagation (parse : ParserFn) (O : ParseOptions)
    (k : PointerKey) (raw e : String) (l1 l2 : FlatJsonValue)
    (mjd pmd : Nat) (spa ppfx : Option String)
    (h : pmd < O.max_depth)
    (hobj : k.value_type = ValueType.Object) (hd : k.depth = pmd)
    (hfail : parse raw { O with pfx := some k.pointer } (k.depth + 1) =
      Except.error e)
    (hpre : ∀ (k2 : PointerKey) (raw2 : String), (k2, some raw2) ∈ l1 →
      k2.value_type = ValueType.Object → k2.depth = pmd →
        ∃ r, parse raw2 { O with pfx := some k2.pointer } (k2.depth + 1) =
          Except.ok r) :
    change_depth parse
        (ParseResult.mk (l1 ++ (k, some raw) :: l2) mjd pmd spa ppfx) O =
      Except.error e ∧
      ∀ (l3 l4 : FlatJsonValue), ∃ e2,
        change_depth parse
            (ParseResult.mk (l3 ++ (k, some raw) :: l4) mjd pmd spa ppfx) O =
          Except.error e2 := by
  constructor
  · simp only [change_depth, if_pos h]
    rw [changeDepthGo_error parse pmd O k raw e l2 hobj hd hfail l1 hpre]
  · intro l3 l4
    obtain ⟨e2, he2⟩ :=
      changeDepthGo_error_exists parse pmd O k raw e hobj hd hfail l3 l4
    refine ⟨e2, ?_⟩
    simp only [change_depth, if_pos h]
    rw [he2]

/-- An inner parser that always fails, used to witness the error
propagation of `change_depth`. -/
def failParse : ParserFn := fun raw _ _ => Except.error ("bad " ++ raw)

/-- Witness for C6: a failing re-parse of the only boundary object makes
`change_depth` return that error. -/
theorem change_depth_error_propagation_witness :
    (1 : Nat) < sampleO.max_depth ∧
      change_depth failParse
          (ParseResult.mk [(PointerKey.mk "/a" ValueType.Object 1 0 0, some "x")]
            3 1 none none) sampleO =
        Except.error "bad x" ∧
        ∀ (l3 l4 : FlatJsonValue), ∃ e2,
          change_depth failParse
              (ParseResult.mk
                (l3 ++ (PointerKey.mk "/a" ValueType.Object 1 0 0, some "x") :: l4)
                3 1 none none) sampleO =
            Except.error e2 :=
  ⟨by decide,
    change_depth_error_propagation failParse sampleO
      (PointerKey.mk "/a" ValueType.Object 1 0 0) "x" "bad x" [] []
      3 1 none none (by decide) rfl rfl rfl
      (fun k2 raw2 hm _ _ => absurd hm (List.not_mem_nil _))⟩

/-- A row holding two entries with the same pointer `/0/x`: the first
carries no value, the second carries `"1"`. -/
def dupRow : JsonArrayEntries :=
  JsonArrayEntries.mk
    [(PointerKey.mk "/0/x" ValueType.Null 2 0 0, none),
      (PointerKey.mk "/0/x" ValueType.Number 2 0 9, some "1")] 0

/-- Counterexample to C3 as stated: in `dupRow` the column pointer
`/0/x` is present among the row's entries with a value that is not
`None` (the second entry), so the claim demands the row be returned;
`filter_non_null_column` nevertheless drops it, because
`find_node_at` consults only the first entry with that pointer, which
is `None`-valued. -/
theorem filter_non_null_column_claim_counterexample :
    (∃ p ∈ dupRow.entries,
        p.1.pointer = "" ++ "/" ++ toString dupRow.index ++ "/x" ∧
          p.2 ≠ none) ∧
      filter_non_null_column [dupRow] "" ["/x"] = [] := by
  constructor
  · exact ⟨(PointerKey.mk "/0/x" ValueType.Number 2 0 9, some "1"),
      by decide, by decide, by decide⟩
  · rfl

/-- The row predicate evaluated by the loop equals the all-columns
first-match predicate. -/
theorem rowPasses_eq_all (row : JsonArrayEntries) (pfx : String) :
    ∀ (cols : List String),
      rowPasses row pfx cols =
        cols.all (fun c =>
          match row.find_node_at (pfx ++ "/" ++ toString row.index ++ c) with
          | some p => p.2.isSome
          | none => false) := by
  intro cols
  induction cols with
  | nil => rfl
  | cons c rest ih =>
    simp only [rowPasses, List.all_cons]
    cases hf : row.find_node_at (pfx ++ "/" ++ toString row.index ++ c) with
    | none => simp
    | some p =>
      obtain ⟨k2, v2⟩ := p
      cases v2 with
      | none => simp [Option.isNone]
      | some s => simp [Option.isNone, ih]

/-- C3 (amended): `filter_non_null_column` returns exactly the rows in
which, for every listed suffix, the **first** entry whose pointer
equals `prefix ++ "/" ++ row.index ++ suffix` exists and has a value
that is not `None`; a row whose column pointer is absent, and a row
whose first entry at the column pointer is `None`-valued, are both
excluded.  (When the pointers inside a row are unique — the parser's
invariant — this coincides with the claim as stated.) -/
theorem filter_non_null_column_firstmatch (rows : List JsonArrayEntries)
    (pfx : String) (cols : List String) :
    filter_non_null_column rows pfx cols =
      rows.filter (fun row =>
        cols.all (fun c =>
          match row.find_node_at (pfx ++ "/" ++ toString row.index ++ c) with
          | some p => p.2.isSome
          | none => false)) := by
  induction rows with
  | nil => rfl
  | cons row rest ih =>
    simp only [filter_non_null_column, List.filter_cons,
      ← rowPasses_eq_all row pfx cols, ih]

/-- C10: the output of `filter_non_null_column` is a sublist of the
input rows — every returned row is an input row, relative order is
preserved and no row gains multiplicity; the operation is total by
construction (it returns a plain list, never an error). -/
theorem filter_non_null_column_sublist (rows : List JsonArrayEntries)
    (pfx : String) (cols : List String) :
    List.Sublist (filter_non_null_column rows pfx cols) rows := by
  induction rows with
  | nil => simp [filter_non_null_column]
  | cons row rest ih =>
    simp only [filter_non_null_column]
    by_cases h : rowPasses row pfx cols = true
    · rw [if_pos h]
      exact List.Sublist.cons₂ row ih
    · rw [if_neg h]
      exact List.Sublist.cons row ih

/-- When `c` does not occur in `l`, `rfindIdx` finds nothing. -/
theorem rfindIdx_none (c : Char) :
    ∀ (l : List Char), c ∉ l → rfindIdx l c = none := by
  intro l
  induction l with
  | nil => intro _; rfl
  | cons x xs ih =>
    intro h
    have hx : ¬ x = c := fun hx => h (hx ▸ List.mem_cons_self x xs)
    simp only [rfindIdx, ih (fun hm => h (List.mem_cons_of_mem _ hm))]
    simp [hx]

/-- `rfindIdx` returns the position of the last occurrence: if `c`
stands at position `i` and at no later position, the search returns
`i`. -/
theorem rfindIdx_last (c : Char) :
    ∀ (l : List Char) (i : Nat), l[i]? = some c →
      (∀ j, i < j → l[j]? ≠ some c) → rfindIdx l c = some i := by
  intro l
  induction l with
  | nil => intro i h1 _; simp at h1
  | cons x xs ih =>
    intro i h1 h2
    cases i with
    | zero =>
      have hx : x = c := by simpa using h1
      have hnone : rfindIdx xs c = none := by
        apply rfindIdx_none
        intro hm
        rw [List.mem_iff_getElem?] at hm
        obtain ⟨j, hj⟩ := hm
        exact h2 (j + 1) (Nat.succ_pos j) (by simpa using hj)
      simp [rfindIdx, hnone, hx]
    | succ i =>
      have h1x : xs[i]? = some c := by simpa using h1
      have h2x : ∀ j, i < j → xs[j]? ≠ some c := by
        intro j hj
        have := h2 (j + 1) (Nat.succ_lt_succ hj)
        simpa using this
      simp [rfindIdx, ih i h1x h2x]

/-- C7: `parent` truncates the pointer at the position of its last `/`
separator, and when that last `/` is at position 0 (a single-segment
pointer, belonging to the document root) it returns `"/"`. -/
theorem pointerKey_parent_last_slash (k : PointerKey) (i : Nat)
    (h1 : k.pointer.toList[i]? = some '/')
    (h2 : ∀ j, i < j → k.pointer.toList[j]? ≠ some '/') :
    k.parent = if i = 0 then "/" else String.mk (k.pointer.toList.take i) := by
  have hr : rfindIdx k.pointer.toList '/' = some i :=
    rfindIdx_last '/' k.pointer.toList i h1 h2
  simp only [PointerKey.parent, hr, Option.getD_some]

/-- Witness for C7 at the two-segment pointer `/a/b`, whose last `/`
stands at position 2: the parent is `/a`. -/
theorem pointerKey_parent_last_slash_witness :
    (PointerKey.mk "/a/b" ValueType.Object 2 0 0).pointer.toList[2]? =
        some '/' ∧
      PointerKey.parent (PointerKey.mk "/a/b" ValueType.Object 2 0 0) = "/a" := by
  constructor
  · decide
  · have h := pointerKey_parent_last_slash
      (PointerKey.mk "/a/b" ValueType.Object 2 0 0) 2
      (by decide)
      (by
        intro j hj hc
        have hlen : ("/a/b".toList).length = 4 := by decide
        by_cases hlt : j < 4
        · have hj3 : j = 3 := by omega
          subst hj3
          exact absurd hc (by decide)
        · have hnone : ("/a/b".toList)[j]? = none := by
            rw [List.getElem?_eq_none_iff, hlen]
            omega
          rw [hnone] at hc
          exact Option.noConfusion hc)
    rw [h]
    decide
